import Mathlib

/-!
Verification of `passkey.py`, a batch PDF-encryption script.

The script reads a (filename, password) mapping from a spreadsheet,
resolves each declared filename against a working directory, and invokes
an external encryption routine per entry, either into an output
directory or in place via a temporary file and an atomic rename.

This file shallowly embeds the script: spreadsheet cells are
`Option String`, the workbook and the directory listing are explicit
data, the external encryption routine is an oracle
`EncCall → EncResult`, and the file system is a map from paths to
optional contents.  Each function keeps its Python name.
-/

namespace Passkey

/-- A spreadsheet cell as surfaced by `iter_rows(values_only=True)`:
either absent (`None`) or a textual value. -/
abbrev Cell := Option String

abbrev Row := List Cell

abbrev Sheet := List Row

/-- Exceptions the loader can raise: `FileNotFoundError` from
`openpyxl.load_workbook` on a missing file, `ValueError` raised
explicitly by the loader, or any other reader failure. -/
inductive PyError where
  | fileNotFoundError
  | valueError (msg : String)
  | otherError (msg : String)
deriving DecidableEq, Repr

/-- The dynamic type (exception class) of a loader error. -/
inductive ErrKind where
  | fileNotFound
  | valueErr
  | otherErr
deriving DecidableEq, Repr

def PyError.kind : PyError → ErrKind
  | .fileNotFoundError => .fileNotFound
  | .valueError _ => .valueErr
  | .otherError _ => .otherErr

/-- An openpyxl workbook: named sheets in order, and the index of the
active sheet returned by `wb.active`. -/
structure Workbook where
  sheets : List (String × Sheet)
  activeIdx : Nat
deriving Repr

def Workbook.sheetnames (wb : Workbook) : List String :=
  wb.sheets.map Prod.fst

def Workbook.activeSheet (wb : Workbook) : Sheet :=
  (wb.sheets.map Prod.snd).getD wb.activeIdx []

/-- Alias set `HEADER_ALIASES["filename"]` from the source. -/
def HEADER_ALIASES_filename : List String :=
  ["filename", "file", "name", "pdf", "pdfname", "文件名", "文件", "名称"]

/-- Alias set `HEADER_ALIASES["password"]` from the source. -/
def HEADER_ALIASES_password : List String :=
  ["password", "pwd", "pass", "密码"]

/-- Python `str.strip()`: drop whitespace from both ends (structural
recursion over the character list, so terms reduce by computation). -/
def strTrim (s : String) : String :=
  ⟨((s.data.dropWhile Char.isWhitespace).reverse.dropWhile Char.isWhitespace).reverse⟩

/-- Python `str.lower()` (ASCII case folding). -/
def strToLower (s : String) : String := ⟨s.data.map Char.toLower⟩

/-- Python `str.endswith(post)`. -/
def strEndsWith (s post : String) : Bool :=
  s.data.drop (s.data.length - post.data.length) == post.data

/-- Python `os.path.basename` for POSIX paths: the part after the last slash. -/
def basename (p : String) : String :=
  ⟨(p.data.reverse.takeWhile (fun c => c ≠ '/')).reverse⟩

/-- Source helper `norm(s) = str(s).strip().lower()`. -/
def norm (s : String) : String := strToLower (strTrim s)

/-- A cell normalized as in `detect_columns`:
`norm(v) if v is not None else ""`. -/
def normCell (c : Cell) : String :=
  match c with
  | none => ""
  | some s => norm s

/-- The scanning loop of `detect_columns`: walks the normalized first
row, recording the index of each alias match (a later match overwrites
an earlier one, as repeated assignment does in the source). -/
def detectLoop : List String → Nat → Option Nat → Option Nat → Option Nat × Option Nat
  | [], _, fn, pw => (fn, pw)
  | v :: rest, i, fn, pw =>
    detectLoop rest (i + 1)
      (if HEADER_ALIASES_filename.contains v then some i else fn)
      (if HEADER_ALIASES_password.contains v then some i else pw)

/-- Translation of `detect_columns(first_row_values)`: returns
`(filename_col_idx, password_col_idx, has_header)`. -/
def detect_columns (first_row_values : Row) : Nat × Nat × Bool :=
  let values := first_row_values.map normCell
  match detectLoop values 0 none none with
  | (fn?, pw?) =>
    if fn?.isNone && pw?.isNone then (0, 1, false)
    else (fn?.getD 0, pw?.getD 1, true)

/-- Insertion into a Python `dict` rendered as an ordered association
list: an existing key keeps its position and gets the new value, a new
key is appended. -/
def dictInsert (m : List (String × String)) (k v : String) : List (String × String) :=
  if m.any (fun p => p.1 == k) then
    m.map (fun p => if p.1 == k then (k, v) else p)
  else m ++ [(k, v)]

/-- Cell access `r[i] if i < len(r) else None`. -/
def rowCell (r : Row) (i : Nat) : Cell := r.getD i none

/-- One row of the processing loop of `load_mapping_from_excel`: skips
the row when the filename or password cell is missing, `None`, or blank
after trimming, and otherwise inserts the trimmed pair. -/
def mappingStep (fn_col pw_col : Nat) (m : List (String × String)) (r : Row) :
    List (String × String) :=
  match rowCell r fn_col, rowCell r pw_col with
  | some fn, some pw =>
    if strTrim fn == "" || strTrim pw == "" then m
    else dictInsert m (strTrim fn) (strTrim pw)
  | _, _ => m

/-- The row-processing loop of `load_mapping_from_excel`. -/
def buildMapping (rows : List Row) (fn_col pw_col : Nat) : List (String × String) :=
  rows.foldl (mappingStep fn_col pw_col) []

/-- Translation of `load_mapping_from_excel(excel_path, sheet)`.  The result of
`openpyxl.load_workbook(excel_path)` is passed in as `wbr` (an
exception from the reader propagates). -/
def load_mapping_from_excel (wbr : Except PyError Workbook) (sheet : Option String) :
    Except PyError (List (String × String)) :=
  match wbr with
  | .error e => .error e
  | .ok wb =>
    let ws? : Except PyError Sheet :=
      match sheet with
      | some s =>
        if wb.sheetnames.contains s then .ok ((wb.sheets.lookup s).getD [])
        else .error (.valueError ("找不到工作表：" ++ s))
      | none => .ok wb.activeSheet
    match ws? with
    | .error e => .error e
    | .ok rows =>
      match rows with
      | [] => .error (.valueError "Excel 工作表为空")
      | r0 :: _ =>
        match detect_columns r0 with
        | (fn_col, pw_col, has_header) =>
          .ok (buildMapping (rows.drop (if has_header then 1 else 0)) fn_col pw_col)

/-- A directory listing: `os.listdir` order, each entry a name paired
with whether `os.path.isfile` holds for it. -/
structure DirListing where
  entries : List (String × Bool)
deriving Repr

/-- Python `os.path.isfile(os.path.join(cwd, name))` for a plain name. -/
def isfile (d : DirListing) (name : String) : Bool :=
  d.entries.any (fun e => e.1 == name && e.2)

/-- Python `os.path.join(cwd, name)` for a plain relative name on POSIX. -/
def pjoin (cwd name : String) : String := cwd ++ "/" ++ name

/-- The shared tail of `resolve_pdf_path`: the exact-case check of
`dir/base` followed by the case-insensitive scan of the listing. -/
def resolveBase (cwd : String) (d : DirListing) (base : String) : Option String :=
  if isfile d base then some (pjoin cwd base)
  else
    match d.entries.find? (fun e => strToLower e.1 == strToLower base && e.2) with
    | some e => some (pjoin cwd e.1)
    | none => none

/-- Translation of `resolve_pdf_path(cwd, filename_from_excel)`. -/
def resolve_pdf_path (cwd : String) (d : DirListing) (filename_from_excel : String) :
    Option String :=
  let cand := strTrim filename_from_excel
  if strEndsWith (strToLower cand) ".pdf" then
    if isfile d cand then some (pjoin cwd cand)
    else resolveBase cwd d cand
  else resolveBase cwd d (cand ++ ".pdf")

/-- One invocation of the external encryption routine: the arguments
`pikepdf` receives after `encrypt_pdf` resolved the owner password. -/
structure EncCall where
  in_path : String
  out_path : String
  user : String
  owner : String
deriving DecidableEq, Repr

/-- Outcome of one external encryption invocation.  On failure the
output path may have been left untouched (`none`) or hold partly
written bytes (`some c`); the routine touches no other path. -/
inductive EncResult where
  | ok (content : String)
  | pwErr (residual : Option String)
  | err (msg : String) (residual : Option String)
deriving DecidableEq, Repr

def EncResult.isOk : EncResult → Bool
  | .ok _ => true
  | _ => false

/-- The external routine as a deterministic oracle. -/
abbrev EncOracle := EncCall → EncResult

/-- Translation of `encrypt_pdf(in_path, out_path, user_password, owner_password)`:
resolves `owner_pw = owner_password if owner_password is not None else
user_password` and performs the call. -/
def encrypt_pdf (enc : EncOracle) (in_path out_path user_password : String)
    (owner_password : Option String) : EncCall × EncResult :=
  let owner_pw := owner_password.getD user_password
  let c : EncCall := ⟨in_path, out_path, user_password, owner_pw⟩
  (c, enc c)

/-- The file system: path to optional content (bytes as a string). -/
abbrev FS := String → Option String

def fsSet (fs : FS) (p : String) (v : Option String) : FS :=
  fun q => if q = p then v else fs q

/-- Effect of one encryption invocation on the file system: only the
output path is written, fully on success and possibly partly on
failure. -/
def applyEnc (fs : FS) (c : EncCall) (r : EncResult) : FS :=
  match r with
  | .ok content => fsSet fs c.out_path (some content)
  | .pwErr residual => match residual with
    | none => fs
    | some content => fsSet fs c.out_path (some content)
  | .err _ residual => match residual with
    | none => fs
    | some content => fsSet fs c.out_path (some content)

/-- Translation of `safe_replace(src_tmp, dst_final)` (`os.replace`): the destination
atomically receives the source content and the source disappears. -/
def safe_replace (fs : FS) (src_tmp dst_final : String) : FS :=
  fsSet (fsSet fs dst_final (fs src_tmp)) src_tmp none

/-- Command-line arguments after `argparse`. -/
structure Args where
  sheet : Option String
  outdir : String
  inplace : Bool
  owner : Option String

/-- The environment `main` runs in: whether `args.excel` names a file,
the workbook the reader yields for it, the working directory and its
listing, the initial file system, and the encryption oracle. -/
structure World where
  excelExists : Bool
  wbr : Except PyError Workbook
  cwd : String
  dir : DirListing
  fs0 : FS
  enc : EncOracle

/-- Mutable state of the batch loop. -/
structure LoopState where
  fs : FS
  total : Nat
  ok : Nat
  skipped : Nat
  failed : Nat
  calls : List EncCall

/-- One iteration of the batch loop of `main` over a mapping entry. -/
def processEntry (w : World) (args : Args) (st : LoopState) (entry : String × String) :
    LoopState :=
  let st := { st with total := st.total + 1 }
  match resolve_pdf_path w.cwd w.dir entry.1 with
  | none => { st with skipped := st.skipped + 1 }
  | some in_pdf =>
    if args.inplace then
      let tmp_path := in_pdf ++ ".tmp_encrypt"
      match encrypt_pdf w.enc in_pdf tmp_path entry.2 args.owner with
      | (c, r) =>
        let fs1 := applyEnc st.fs c r
        if r.isOk then
          { st with fs := safe_replace fs1 tmp_path in_pdf
                    ok := st.ok + 1
                    calls := st.calls ++ [c] }
        else
          { st with fs := fs1
                    failed := st.failed + 1
                    calls := st.calls ++ [c] }
    else
      let out_path := pjoin (pjoin w.cwd args.outdir) (basename in_pdf)
      match encrypt_pdf w.enc in_pdf out_path entry.2 args.owner with
      | (c, r) =>
        let fs1 := applyEnc st.fs c r
        if r.isOk then
          { st with fs := fs1
                    ok := st.ok + 1
                    calls := st.calls ++ [c] }
        else
          { st with fs := fs1
                    failed := st.failed + 1
                    calls := st.calls ++ [c] }

def runLoop (w : World) (args : Args) (st : LoopState) (entries : List (String × String)) :
    LoopState :=
  entries.foldl (processEntry w args) st

/-- Observable outcome of a run of `main`. -/
structure RunResult where
  exitCode : Nat
  total : Nat
  ok : Nat
  skipped : Nat
  failed : Nat
  fs : FS
  calls : List EncCall
  summaryPrinted : Bool

/-- Translation of `main()`: precondition checks (missing spreadsheet, reader failure,
empty mapping each exit with status 2), then the batch loop, then the
summary and `sys.exit(0 if failed == 0 else 1)`. -/
def main (w : World) (args : Args) : RunResult :=
  if ¬ w.excelExists then
    ⟨2, 0, 0, 0, 0, w.fs0, [], false⟩
  else
    match load_mapping_from_excel w.wbr args.sheet with
    | .error _ => ⟨2, 0, 0, 0, 0, w.fs0, [], false⟩
    | .ok mapping =>
      if mapping.isEmpty then ⟨2, 0, 0, 0, 0, w.fs0, [], false⟩
      else
        let st := runLoop w args ⟨w.fs0, 0, 0, 0, 0, []⟩ mapping
        ⟨if st.failed = 0 then 0 else 1,
         st.total, st.ok, st.skipped, st.failed, st.fs, st.calls, true⟩

/-- The encryption call that processing a given entry produces, if the
entry resolves: user password is the entry password, owner password the
`--owner` override or else the entry password. -/
def entryCallSpec (w : World) (args : Args) (e : String × String) : Option EncCall :=
  (resolve_pdf_path w.cwd w.dir e.1).map (fun p =>
    ⟨p,
     if args.inplace then p ++ ".tmp_encrypt"
     else pjoin (pjoin w.cwd args.outdir) (basename p),
     e.2, args.owner.getD e.2⟩)

/-- The condition under which processing one entry cannot change the
content at path `p` in in-place mode: `p` is not the entry's temporary
file, and if the entry resolves to `p` itself then its encryption call
does not succeed. -/
def entrySafeFor (w : World) (args : Args) (p : String) (e : String × String) : Bool :=
  match resolve_pdf_path w.cwd w.dir e.1 with
  | none => true
  | some q =>
    (q ++ ".tmp_encrypt" != p) &&
    ((q != p) || !(w.enc ⟨q, q ++ ".tmp_encrypt", e.2, args.owner.getD e.2⟩).isOk)

/-- All entries of the loaded mapping are safe for path `p` in the
sense of `entrySafeFor` (vacuously true when loading fails). -/
def mappingSafeFor (w : World) (args : Args) (p : String) : Bool :=
  match load_mapping_from_excel w.wbr args.sheet with
  | .error _ => true
  | .ok m => m.all (entrySafeFor w args p)

/-- Modelled from the spec's wording of the path-resolution contract
(section 4.2): trim the name; when it already carries the extension try
the exact name; then try the exact candidate base (the name with
`.pdf` appended when absent); then take the first regular file in the
listing whose lowercased name equals the lowercased base; else report
not found. -/
def resolve_pdf_path_spec (cwd : String) (d : DirListing) (name : String) : Option String :=
  let cand := strTrim name
  let base := if strEndsWith (strToLower cand) ".pdf" then cand else cand ++ ".pdf"
  let exactNamed :=
    if strEndsWith (strToLower cand) ".pdf" && isfile d cand then some (pjoin cwd cand) else none
  let exactBase := if isfile d base then some (pjoin cwd base) else none
  let scan :=
    (d.entries.find? (fun e => strToLower e.1 == strToLower base && e.2)).map
      (fun e => pjoin cwd e.1)
  (exactNamed <|> exactBase) <|> scan

def wbTest : Workbook :=
  ⟨[("Sheet1",
     [[some "filename", some "password"],
      [some "invoice", some "abc123"],
      [some "report.pdf", some "xyz789"]])], 0⟩

def dirTest : DirListing :=
  ⟨[("INVOICE.PDF", true), ("report.pdf", true), ("notes.txt", true)]⟩

def fs0Test : FS := fun q =>
  if q = "/w/INVOICE.PDF" then some "INV"
  else if q = "/w/report.pdf" then some "REP"
  else none

def encFailOracle : EncOracle := fun _ => .pwErr none

def encOkOracle : EncOracle := fun c => .ok ("ENC:" ++ c.in_path)

def wFail : World := ⟨true, .ok wbTest, "/w", dirTest, fs0Test, encFailOracle⟩

def wOk : World := ⟨true, .ok wbTest, "/w", dirTest, fs0Test, encOkOracle⟩

def argsIP : Args := ⟨none, "protected", true, none⟩

def mappingTest : List (String × String) := [("invoice", "abc123"), ("report.pdf", "xyz789")]

def st0Test : LoopState := ⟨fs0Test, 0, 0, 0, 0, []⟩

theorem processEntry_step (w : World) (args : Args) (st : LoopState) (e : String × String) :
    (processEntry w args st e).total = st.total + 1 ∧
    (((processEntry w args st e).ok = st.ok + 1 ∧
      (processEntry w args st e).skipped = st.skipped ∧
      (processEntry w args st e).failed = st.failed) ∨
     ((processEntry w args st e).ok = st.ok ∧
      (processEntry w args st e).skipped = st.skipped + 1 ∧
      (processEntry w args st e).failed = st.failed) ∨
     ((processEntry w args st e).ok = st.ok ∧
      (processEntry w args st e).skipped = st.skipped ∧
      (processEntry w args st e).failed = st.failed + 1)) := by
  unfold processEntry
  cases hr : resolve_pdf_path w.cwd w.dir e.1 with
  | none => exact ⟨rfl, Or.inr (Or.inl ⟨rfl, rfl, rfl⟩)⟩
  | some q =>
    simp only [encrypt_pdf]
    split <;> split <;>
      first
        | exact ⟨rfl, Or.inl ⟨rfl, rfl, rfl⟩⟩
        | exact ⟨rfl, Or.inr (Or.inr ⟨rfl, rfl, rfl⟩)⟩

theorem runLoop_counts (w : World) (args : Args) (es : List (String × String)) :
    ∀ st : LoopState,
      (runLoop w args st es).total = st.total + es.length ∧
      (runLoop w args st es).ok + (runLoop w args st es).skipped + (runLoop w args st es).failed
        = st.ok + st.skipped + st.failed + es.length := by
  induction es with
  | nil => intro st; simp [runLoop]
  | cons e rest ih =>
    intro st
    have hstep := processEntry_step w args st e
    have hrest := ih (processEntry w args st e)
    have hcons : runLoop w args st (e :: rest) = runLoop w args (processEntry w args st e) rest := by
      simp only [runLoop, List.foldl_cons]
    rw [hcons]
    rcases hstep with ⟨ht, hcase⟩
    rcases hrest with ⟨ht2, hsum⟩
    refine ⟨by rw [ht2, ht]; simp [List.length_cons]; omega, ?_⟩
    rcases hcase with ⟨h1, h2, h3⟩ | ⟨h1, h2, h3⟩ | ⟨h1, h2, h3⟩ <;>
      (rw [hsum, h1, h2, h3]; simp [List.length_cons]; omega)

theorem processEntry_calls (w : World) (args : Args) (st : LoopState) (e : String × String) :
    (processEntry w args st e).calls = st.calls ++ (entryCallSpec w args e).toList := by
  unfold processEntry entryCallSpec
  cases hr : resolve_pdf_path w.cwd w.dir e.1 with
  | none => simp
  | some q =>
    simp only [encrypt_pdf, Option.map_some, Option.toList_some]
    split <;> split <;> rfl

theorem runLoop_calls (w : World) (args : Args) (es : List (String × String)) :
    ∀ st : LoopState,
      (runLoop w args st es).calls = st.calls ++ es.filterMap (entryCallSpec w args) := by
  induction es with
  | nil => intro st; simp [runLoop]
  | cons e rest ih =>
    intro st
    have hcons : runLoop w args st (e :: rest) = runLoop w args (processEntry w args st e) rest := by
      simp only [runLoop, List.foldl_cons]
    rw [hcons, ih (processEntry w args st e), processEntry_calls]
    cases hr : entryCallSpec w args e <;>
      simp [List.filterMap_cons, hr]

theorem fsSet_ne (fs : FS) (p : String) (v : Option String) (q : String) (h : q ≠ p) :
    fsSet fs p v q = fs q := by
  simp [fsSet, h]

theorem applyEnc_ne (fs : FS) (c : EncCall) (r : EncResult) (p : String)
    (h : p ≠ c.out_path) : applyEnc fs c r p = fs p := by
  cases r with
  | ok content => simp [applyEnc, fsSet, h]
  | pwErr residual => cases residual <;> simp [applyEnc, fsSet, h]
  | err m residual => cases residual <;> simp [applyEnc, fsSet, h]

theorem processEntry_fs_preserve (w : World) (args : Args) (st : LoopState)
    (e : String × String) (p : String) (hip : args.inplace = true)
    (hsafe : entrySafeFor w args p e = true) :
    (processEntry w args st e).fs p = st.fs p := by
  unfold processEntry
  unfold entrySafeFor at hsafe
  cases hr : resolve_pdf_path w.cwd w.dir e.1 with
  | none => rfl
  | some q =>
    rw [hr] at hsafe
    simp only [Bool.and_eq_true, Bool.or_eq_true, bne_iff_ne, Bool.not_eq_true'] at hsafe
    obtain ⟨htmp, hor⟩ := hsafe
    simp only [hip, eq_self_iff_true, if_true, encrypt_pdf]
    split
    case isTrue hok =>
      have hqp : q ≠ p := by
        rcases hor with h | h
        · exact h
        · rw [hok] at h; cases h
      show safe_replace _ (q ++ ".tmp_encrypt") q p = st.fs p
      unfold safe_replace
      rw [fsSet_ne _ _ _ _ (Ne.symm htmp), fsSet_ne _ _ _ _ (Ne.symm hqp)]
      exact applyEnc_ne _ _ _ _ (Ne.symm htmp)
    case isFalse hok =>
      exact applyEnc_ne _ _ _ _ (Ne.symm htmp)

theorem runLoop_fs_preserve (w : World) (args : Args) (p : String)
    (hip : args.inplace = true) (es : List (String × String)) :
    ∀ st : LoopState, es.all (entrySafeFor w args p) = true →
      (runLoop w args st es).fs p = st.fs p := by
  induction es with
  | nil => intro st _; rfl
  | cons e rest ih =>
    intro st hall
    simp only [List.all_cons, Bool.and_eq_true] at hall
    have hcons : runLoop w args st (e :: rest) = runLoop w args (processEntry w args st e) rest := by
      simp only [runLoop, List.foldl_cons]
    rw [hcons, ih (processEntry w args st e) hall.2,
        processEntry_fs_preserve w args st e p hip hall.1]

theorem string_ne_append_tmp (q : String) : q ≠ q ++ ".tmp_encrypt" := by
  intro h
  have hlen := congrArg String.length h
  rw [String.length_append] at hlen
  have h12 : (".tmp_encrypt" : String).length = 12 := rfl
  omega

theorem processEntry_rename_success (w : World) (args : Args) (st : LoopState)
    (e : String × String) (q : String) (ct : String) (hip : args.inplace = true)
    (hr : resolve_pdf_path w.cwd w.dir e.1 = some q)
    (henc : w.enc ⟨q, q ++ ".tmp_encrypt", e.2, args.owner.getD e.2⟩ = .ok ct) :
    (processEntry w args st e).fs q = some ct := by
  unfold processEntry
  rw [hr]
  simp only [hip, eq_self_iff_true, if_true, encrypt_pdf, henc]
  show safe_replace (applyEnc st.fs _ (.ok ct)) (q ++ ".tmp_encrypt") q q = some ct
  unfold safe_replace applyEnc
  rw [fsSet_ne _ _ _ _ (string_ne_append_tmp q)]
  simp [fsSet]

theorem main_run (w : World) (args : Args) (mapping : List (String × String))
    (hex : w.excelExists = true)
    (hld : load_mapping_from_excel w.wbr args.sheet = .ok mapping)
    (hne : mapping ≠ []) :
    main w args =
      ⟨if (runLoop w args ⟨w.fs0, 0, 0, 0, 0, []⟩ mapping).failed = 0 then 0 else 1,
       (runLoop w args ⟨w.fs0, 0, 0, 0, 0, []⟩ mapping).total,
       (runLoop w args ⟨w.fs0, 0, 0, 0, 0, []⟩ mapping).ok,
       (runLoop w args ⟨w.fs0, 0, 0, 0, 0, []⟩ mapping).skipped,
       (runLoop w args ⟨w.fs0, 0, 0, 0, 0, []⟩ mapping).failed,
       (runLoop w args ⟨w.fs0, 0, 0, 0, 0, []⟩ mapping).fs,
       (runLoop w args ⟨w.fs0, 0, 0, 0, 0, []⟩ mapping).calls,
       true⟩ := by
  have hemp : mapping.isEmpty = false := by
    cases mapping with
    | nil => exact absurd rfl hne
    | cons a l => rfl
  unfold main
  rw [hld]
  simp [hex, hemp]

theorem main_pre_fail (w : World) (args : Args)
    (h : ¬ (w.excelExists = true ∧
            ∃ m, load_mapping_from_excel w.wbr args.sheet = .ok m ∧ m ≠ [])) :
    main w args = ⟨2, 0, 0, 0, 0, w.fs0, [], false⟩ := by
  unfold main
  by_cases hex : w.excelExists = true
  · cases hld : load_mapping_from_excel w.wbr args.sheet with
    | error e => simp [hex]
    | ok m =>
      have hm : m = [] := by
        by_contra hm
        exact h ⟨hex, m, hld, hm⟩
      subst hm
      simp [hex]
  · have hex2 : w.excelExists = false := by
      cases hb : w.excelExists
      · rfl
      · exact absurd hb hex
    simp [hex2]

theorem processEntry_failed_of_encFail (w : World) (args : Args) (st : LoopState)
    (e : String × String) (c : EncCall)
    (hc : entryCallSpec w args e = some c)
    (hfail : (w.enc c).isOk = false) :
    (processEntry w args st e).failed = st.failed + 1 ∧
    (processEntry w args st e).total = st.total + 1 := by
  unfold entryCallSpec at hc
  unfold processEntry
  cases hr : resolve_pdf_path w.cwd w.dir e.1 with
  | none => rw [hr] at hc; cases hc
  | some q =>
    rw [hr] at hc
    simp only [Option.map_some'] at hc
    by_cases hip : args.inplace = true
    · rw [hip] at hc
      simp only [eq_self_iff_true, if_true] at hc
      rw [← Option.some_inj.mp hc] at hfail
      simp only [hip, eq_self_iff_true, if_true, encrypt_pdf]
      rw [if_neg]
      · exact ⟨rfl, rfl⟩
      · simp only [hfail, Bool.false_eq_true, not_false_eq_true]
    · have hip2 : args.inplace = false := by
        cases hb : args.inplace
        · rfl
        · exact absurd hb hip
      rw [hip2] at hc
      simp only [if_false, Bool.false_eq_true] at hc
      rw [← Option.some_inj.mp hc] at hfail
      simp only [hip2, Bool.false_eq_true, if_false, encrypt_pdf]
      rw [if_neg]
      · exact ⟨rfl, rfl⟩
      · simp only [hfail, Bool.false_eq_true, not_false_eq_true]

/-- C10: on every iteration of the batch loop, `total` grows by exactly
one and exactly one of `ok`, `skipped`, `failed` grows by one; hence
after processing, `total = ok + skipped + failed` and `total` equals
the number of mapping entries. -/
theorem counter_invariant (w : World) (args : Args) (mapping : List (String × String))
    (hex : w.excelExists = true)
    (hld : load_mapping_from_excel w.wbr args.sheet = .ok mapping)
    (hne : mapping ≠ []) :
    (main w args).total = (main w args).ok + (main w args).skipped + (main w args).failed ∧
    (main w args).total = mapping.length ∧
    (∀ st e, (processEntry w args st e).total = st.total + 1 ∧
      (((processEntry w args st e).ok = st.ok + 1 ∧
        (processEntry w args st e).skipped = st.skipped ∧
        (processEntry w args st e).failed = st.failed) ∨
       ((processEntry w args st e).ok = st.ok ∧
        (processEntry w args st e).skipped = st.skipped + 1 ∧
        (processEntry w args st e).failed = st.failed) ∨
       ((processEntry w args st e).ok = st.ok ∧
        (processEntry w args st e).skipped = st.skipped ∧
        (processEntry w args st e).failed = st.failed + 1))) := by
  rw [main_run w args mapping hex hld hne]
  have h := runLoop_counts w args mapping ⟨w.fs0, 0, 0, 0, 0, []⟩
  dsimp only at h ⊢
  exact ⟨by omega, by omega, fun st e => processEntry_step w args st e⟩

/-- C9: a failing encryption call is absorbed into the `failed` counter
and the loop continues: every mapping entry is counted, and the final
summary is printed no matter how many entries fail. -/
theorem per_entry_failure_never_aborts (w : World) (args : Args)
    (mapping : List (String × String))
    (hex : w.excelExists = true)
    (hld : load_mapping_from_excel w.wbr args.sheet = .ok mapping)
    (hne : mapping ≠ []) :
    (main w args).summaryPrinted = true ∧
    (main w args).total = mapping.length ∧
    (∀ st e c, entryCallSpec w args e = some c → (w.enc c).isOk = false →
      (processEntry w args st e).failed = st.failed + 1 ∧
      (processEntry w args st e).total = st.total + 1) := by
  rw [main_run w args mapping hex hld hne]
  have h := runLoop_counts w args mapping ⟨w.fs0, 0, 0, 0, 0, []⟩
  dsimp only at h ⊢
  exact ⟨rfl, by omega,
    fun st e c hc hf => processEntry_failed_of_encFail w args st e c hc hf⟩

/-- C4: the process exits 2 exactly when a precondition fails (missing
spreadsheet, reader error, or empty mapping), exits 0 exactly when the
preconditions hold and no entry failed, and exits 1 exactly when the
preconditions hold and at least one entry failed. -/
theorem exit_code_characterization (w : World) (args : Args) :
    ((main w args).exitCode = 2 ↔
      ¬ (w.excelExists = true ∧
         ∃ m, load_mapping_from_excel w.wbr args.sheet = .ok m ∧ m ≠ [])) ∧
    ((main w args).exitCode = 0 ↔
      ((w.excelExists = true ∧
        ∃ m, load_mapping_from_excel w.wbr args.sheet = .ok m ∧ m ≠ []) ∧
       (main w args).failed = 0)) ∧
    ((main w args).exitCode = 1 ↔
      ((w.excelExists = true ∧
        ∃ m, load_mapping_from_excel w.wbr args.sheet = .ok m ∧ m ≠ []) ∧
       (main w args).failed ≠ 0)) := by
  by_cases hpre : w.excelExists = true ∧
      ∃ m, load_mapping_from_excel w.wbr args.sheet = .ok m ∧ m ≠ []
  · have hpre2 := hpre
    obtain ⟨hex, m, hld, hne⟩ := hpre2
    rw [main_run w args m hex hld hne]
    dsimp only
    by_cases hf : (runLoop w args ⟨w.fs0, 0, 0, 0, 0, []⟩ m).failed = 0
    · rw [if_pos hf]
      exact ⟨by simp [hpre], by simp [hpre, hf], by simp [hpre, hf]⟩
    · rw [if_neg hf]
      exact ⟨by simp [hpre], by simp [hpre, hf], by simp [hpre, hf]⟩
  · rw [main_pre_fail w args hpre]
    dsimp only
    exact ⟨by simp [hpre], by simp [hpre], by simp [hpre]⟩

/-- C6: every encryption invocation carries the entry's password as the
user password, and as owner password the `--owner` override when given,
else that same entry password; exactly the resolving entries are
invoked. -/
theorem encryption_call_passwords (w : World) (args : Args)
    (mapping : List (String × String))
    (hex : w.excelExists = true)
    (hld : load_mapping_from_excel w.wbr args.sheet = .ok mapping) :
    (main w args).calls = mapping.filterMap (entryCallSpec w args) ∧
    (∀ c ∈ (main w args).calls,
      ∃ e ∈ mapping, c.user = e.2 ∧ c.owner = args.owner.getD e.2) := by
  have hcalls : (main w args).calls = mapping.filterMap (entryCallSpec w args) := by
    by_cases hne : mapping = []
    · subst hne
      rw [main_pre_fail w args]
      · rfl
      · rintro ⟨-, m, hld2, hne2⟩
        rw [hld] at hld2
        exact hne2 (Except.ok.inj hld2).symm
    · rw [main_run w args mapping hex hld hne]
      dsimp only
      rw [runLoop_calls]
      rfl
  refine ⟨hcalls, ?_⟩
  intro c hc
  rw [hcalls] at hc
  obtain ⟨e, he, hce⟩ := List.mem_filterMap.mp hc
  unfold entryCallSpec at hce
  obtain ⟨p, hp, hpc⟩ := Option.map_eq_some'.mp hce
  exact ⟨e, he, by rw [← hpc], by rw [← hpc]⟩

/-- C1: in in-place mode, a path whose every resolving entry has a
failing encryption call (and which is no entry's temporary file) holds
exactly its pre-run content after the whole run; and when an entry's
encryption call succeeds, the resolved original holds exactly the bytes
the routine wrote to the temporary file, installed by the completed
rename. -/
theorem inplace_preserves_original (w : World) (args : Args) (p : String)
    (hip : args.inplace = true)
    (hsafe : mappingSafeFor w args p = true) :
    (main w args).fs p = w.fs0 p ∧
    (∀ st e q ct, resolve_pdf_path w.cwd w.dir e.1 = some q →
      w.enc ⟨q, q ++ ".tmp_encrypt", e.2, args.owner.getD e.2⟩ = .ok ct →
      (processEntry w args st e).fs q = some ct) := by
  constructor
  · by_cases hpre : w.excelExists = true ∧
        ∃ m, load_mapping_from_excel w.wbr args.sheet = .ok m ∧ m ≠ []
    · have hpre2 := hpre
      obtain ⟨hex, m, hld, hne⟩ := hpre2
      rw [main_run w args m hex hld hne]
      dsimp only
      have hall : m.all (entrySafeFor w args p) = true := by
        unfold mappingSafeFor at hsafe
        rw [hld] at hsafe
        exact hsafe
      exact runLoop_fs_preserve w args p hip m _ hall
    · rw [main_pre_fail w args hpre]
  · exact fun st e q ct hr henc =>
      processEntry_rename_success w args st e q ct hip hr henc

/-- C3: the path resolver implements exactly the trim / exact-check /
extension-completion / case-insensitive-scan policy of the spec, and
reports absence as `none` instead of raising. -/
theorem resolve_pdf_path_matches_spec (cwd : String) (d : DirListing) (name : String) :
    resolve_pdf_path cwd d name = resolve_pdf_path_spec cwd d name := by
  unfold resolve_pdf_path resolve_pdf_path_spec resolveBase
  dsimp only
  by_cases hend : strEndsWith (strToLower (strTrim name)) ".pdf"
  · simp only [hend, if_true, Bool.true_and, eq_self_iff_true]
    by_cases h1 : isfile d (strTrim name)
    · simp [h1]
    · simp only [h1, Bool.false_eq_true, if_false]
      cases hf : d.entries.find? (fun e => strToLower e.1 == strToLower (strTrim name) && e.2) <;>
        simp [hf]
  · have hend2 : strEndsWith (strToLower (strTrim name)) ".pdf" = false := by
      cases hb : strEndsWith (strToLower (strTrim name)) ".pdf"
      · rfl
      · exact absurd hb hend
    simp only [hend2, Bool.false_eq_true, if_false, Bool.false_and]
    by_cases h2 : isfile d (strTrim name ++ ".pdf")
    · simp [h2]
    · simp only [h2, Bool.false_eq_true, if_false]
      cases hf : d.entries.find?
          (fun e => strToLower e.1 == strToLower (strTrim name ++ ".pdf") && e.2) <;>
        simp [hf]

theorem bool_eq_false {b : Bool} (h : ¬ b = true) : b = false := by
  cases b
  · rfl
  · exact absurd rfl h

theorem detectLoop_fst_isSome (vs : List String) :
    ∀ (i : Nat) (fn pw : Option Nat),
      (detectLoop vs i fn pw).1.isSome
        = (fn.isSome || vs.any (fun v => HEADER_ALIASES_filename.contains v)) := by
  induction vs with
  | nil => intro i fn pw; simp [detectLoop]
  | cons v rest ih =>
    intro i fn pw
    simp only [detectLoop, List.any_cons]
    rw [ih]
    by_cases hv : HEADER_ALIASES_filename.contains v
    · simp only [hv, if_true, eq_self_iff_true, Option.isSome_some, Bool.true_or, Bool.or_true]
    · simp only [bool_eq_false hv, Bool.false_eq_true, if_false, Bool.false_or]

theorem detectLoop_snd_isSome (vs : List String) :
    ∀ (i : Nat) (fn pw : Option Nat),
      (detectLoop vs i fn pw).2.isSome
        = (pw.isSome || vs.any (fun v => HEADER_ALIASES_password.contains v)) := by
  induction vs with
  | nil => intro i fn pw; simp [detectLoop]
  | cons v rest ih =>
    intro i fn pw
    simp only [detectLoop, List.any_cons]
    rw [ih]
    by_cases hv : HEADER_ALIASES_password.contains v
    · simp only [hv, if_true, eq_self_iff_true, Option.isSome_some, Bool.true_or, Bool.or_true]
    · simp only [bool_eq_false hv, Bool.false_eq_true, if_false, Bool.false_or]

theorem detectLoop_fst_keep (vs : List String) :
    ∀ (i : Nat) (fn pw : Option Nat),
      vs.any (fun v => HEADER_ALIASES_filename.contains v) = false →
      (detectLoop vs i fn pw).1 = fn := by
  induction vs with
  | nil => intro i fn pw _; rfl
  | cons v rest ih =>
    intro i fn pw h
    simp only [List.any_cons, Bool.or_eq_false_iff] at h
    simp only [detectLoop, h.1, Bool.false_eq_true, if_false]
    exact ih (i + 1) fn _ h.2

theorem detectLoop_snd_keep (vs : List String) :
    ∀ (i : Nat) (fn pw : Option Nat),
      vs.any (fun v => HEADER_ALIASES_password.contains v) = false →
      (detectLoop vs i fn pw).2 = pw := by
  induction vs with
  | nil => intro i fn pw _; rfl
  | cons v rest ih =>
    intro i fn pw h
    simp only [List.any_cons, Bool.or_eq_false_iff] at h
    simp only [detectLoop, h.1, Bool.false_eq_true, if_false]
    exact ih (i + 1) _ pw h.2

theorem detectLoop_fst_mem (vs : List String) :
    ∀ (i : Nat) (fn pw : Option Nat) (j : Nat),
      (detectLoop vs i fn pw).1 = some j →
      fn = some j ∨
        (i ≤ j ∧ j - i < vs.length ∧
         HEADER_ALIASES_filename.contains (vs.getD (j - i) "") = true) := by
  induction vs with
  | nil => intro i fn pw j h; exact Or.inl h
  | cons v rest ih =>
    intro i fn pw j h
    simp only [detectLoop] at h
    rcases ih (i + 1) _ _ j h with h1 | ⟨hle, hlt, hc⟩
    · by_cases hv : HEADER_ALIASES_filename.contains v
      · rw [if_pos hv] at h1
        have hj : j = i := (Option.some_inj.mp h1).symm
        subst hj
        exact Or.inr ⟨Nat.le_refl j, by simp, by simpa using hv⟩
      · rw [if_neg hv] at h1
        exact Or.inl h1
    · refine Or.inr ⟨Nat.le_of_succ_le hle, ?_, ?_⟩
      · simp only [List.length_cons]; omega
      · have hji : j - i = (j - (i + 1)) + 1 := by omega
        rw [hji, List.getD_cons_succ]
        exact hc

theorem detectLoop_snd_mem (vs : List String) :
    ∀ (i : Nat) (fn pw : Option Nat) (j : Nat),
      (detectLoop vs i fn pw).2 = some j →
      pw = some j ∨
        (i ≤ j ∧ j - i < vs.length ∧
         HEADER_ALIASES_password.contains (vs.getD (j - i) "") = true) := by
  induction vs with
  | nil => intro i fn pw j h; exact Or.inl h
  | cons v rest ih =>
    intro i fn pw j h
    simp only [detectLoop] at h
    rcases ih (i + 1) _ _ j h with h1 | ⟨hle, hlt, hc⟩
    · by_cases hv : HEADER_ALIASES_password.contains v
      · rw [if_pos hv] at h1
        have hj : j = i := (Option.some_inj.mp h1).symm
        subst hj
        exact Or.inr ⟨Nat.le_refl j, by simp, by simpa using hv⟩
      · rw [if_neg hv] at h1
        exact Or.inl h1
    · refine Or.inr ⟨Nat.le_of_succ_le hle, ?_, ?_⟩
      · simp only [List.length_cons]; omega
      · have hji : j - i = (j - (i + 1)) + 1 := by omega
        rw [hji, List.getD_cons_succ]
        exact hc

theorem option_eq_none {α : Type} {o : Option α} (h : o.isSome = false) : o = none := by
  cases o
  · rfl
  · exact Bool.noConfusion h

/-- Equation for `detect_columns` with explicit projections of the scan
result (definitionally equal, by structure eta). -/
theorem detect_columns_eq (row : Row) :
    detect_columns row =
      (if ((detectLoop (row.map normCell) 0 none none).1.isNone &&
           (detectLoop (row.map normCell) 0 none none).2.isNone) = true
       then (0, 1, false)
       else ((detectLoop (row.map normCell) 0 none none).1.getD 0,
             (detectLoop (row.map normCell) 0 none none).2.getD 1, true)) := rfl

/-- C2: first-row column detection: cells are normalized (trim,
lowercase, `None` to empty); a row with no alias match yields columns
(0, 1) and no header with data starting at row 0; a row with any alias
match is a header with data starting at row 1, the detected filename
and password columns holding alias cells, a missing filename index
defaulting to 0 and a missing password index to 1. -/
theorem detect_columns_characterization (row : Row) :
    (((row.map normCell).any (fun v => HEADER_ALIASES_filename.contains v) = false ∧
      (row.map normCell).any (fun v => HEADER_ALIASES_password.contains v) = false) →
      detect_columns row = (0, 1, false)) ∧
    ((detect_columns row).2.2 =
      ((row.map normCell).any (fun v => HEADER_ALIASES_filename.contains v) ||
       (row.map normCell).any (fun v => HEADER_ALIASES_password.contains v))) ∧
    ((row.map normCell).any (fun v => HEADER_ALIASES_filename.contains v) = true →
      HEADER_ALIASES_filename.contains
        ((row.map normCell).getD (detect_columns row).1 "") = true) ∧
    ((row.map normCell).any (fun v => HEADER_ALIASES_filename.contains v) = false →
      (row.map normCell).any (fun v => HEADER_ALIASES_password.contains v) = true →
      (detect_columns row).1 = 0) ∧
    ((row.map normCell).any (fun v => HEADER_ALIASES_password.contains v) = true →
      HEADER_ALIASES_password.contains
        ((row.map normCell).getD (detect_columns row).2.1 "") = true) ∧
    ((row.map normCell).any (fun v => HEADER_ALIASES_password.contains v) = false →
      (row.map normCell).any (fun v => HEADER_ALIASES_filename.contains v) = true →
      (detect_columns row).2.1 = 1) ∧
    (∀ (rest : List Row) (nm : String),
      load_mapping_from_excel (.ok ⟨[(nm, row :: rest)], 0⟩) none =
        .ok (buildMapping ((row :: rest).drop (if (detect_columns row).2.2 then 1 else 0))
            (detect_columns row).1 (detect_columns row).2.1)) := by
  have hfst := detectLoop_fst_isSome (row.map normCell) 0 none none
  have hsnd := detectLoop_snd_isSome (row.map normCell) 0 none none
  simp only [Option.isSome_none, Bool.false_or] at hfst hsnd
  refine ⟨?_, ?_, ?_, ?_, ?_, ?_, ?_⟩
  · rintro ⟨hf, hp⟩
    rw [hf] at hfst
    rw [hp] at hsnd
    rw [detect_columns_eq, option_eq_none hfst, option_eq_none hsnd]
    rfl
  · rw [detect_columns_eq, ← hfst, ← hsnd]
    cases hq1 : (detectLoop (row.map normCell) 0 none none).1 <;>
      cases hq2 : (detectLoop (row.map normCell) 0 none none).2 <;>
        simp
  · intro hf
    rw [hf] at hfst
    have h1s : (detectLoop (row.map normCell) 0 none none).1.isSome = true := hfst
    obtain ⟨j, hj⟩ := Option.isSome_iff_exists.mp h1s
    rcases detectLoop_fst_mem (row.map normCell) 0 none none j hj with h | ⟨-, -, hc⟩
    · exact Option.noConfusion h
    · rw [detect_columns_eq, hj]
      simp only [Option.isNone_some, Bool.false_and, Bool.false_eq_true, if_false,
        Option.getD_some]
      simpa using hc
  · intro hf hp
    rw [hf] at hfst
    rw [hp] at hsnd
    have h2s : (detectLoop (row.map normCell) 0 none none).2.isSome = true := hsnd
    obtain ⟨j, hj⟩ := Option.isSome_iff_exists.mp h2s
    rw [detect_columns_eq, option_eq_none hfst, hj]
    simp
  · intro hp
    rw [hp] at hsnd
    have h2s : (detectLoop (row.map normCell) 0 none none).2.isSome = true := hsnd
    obtain ⟨j, hj⟩ := Option.isSome_iff_exists.mp h2s
    rcases detectLoop_snd_mem (row.map normCell) 0 none none j hj with h | ⟨-, -, hc⟩
    · exact Option.noConfusion h
    · rw [detect_columns_eq, hj]
      simp only [Option.isNone_some, Bool.and_false, Bool.false_eq_true, if_false,
        Option.getD_some]
      simpa using hc
  · intro hp hf
    rw [hp] at hsnd
    rw [hf] at hfst
    have h1s : (detectLoop (row.map normCell) 0 none none).1.isSome = true := hfst
    obtain ⟨j, hj⟩ := Option.isSome_iff_exists.mp h1s
    rw [detect_columns_eq, option_eq_none hsnd, hj]
    simp
  · intro rest nm
    rfl

theorem dictInsert_mem (m : List (String × String)) (k v : String) :
    ∀ e ∈ dictInsert m k v, e ∈ m ∨ e = (k, v) := by
  intro e he
  unfold dictInsert at he
  by_cases hc : m.any (fun p => p.1 == k)
  · rw [if_pos hc] at he
    obtain ⟨p, hp, hpe⟩ := List.mem_map.mp he
    by_cases hpk : p.1 == k
    · rw [if_pos hpk] at hpe
      exact Or.inr hpe.symm
    · rw [if_neg hpk] at hpe
      exact Or.inl (hpe ▸ hp)
  · rw [if_neg hc] at he
    rcases List.mem_append.mp he with h | h
    · exact Or.inl h
    · exact Or.inr (List.mem_singleton.mp h)

theorem mappingStep_good (fn_col pw_col : Nat) (m : List (String × String)) (r : Row)
    (hm : ∀ e ∈ m, e.1 ≠ "" ∧ e.2 ≠ "") :
    ∀ e ∈ mappingStep fn_col pw_col m r, e.1 ≠ "" ∧ e.2 ≠ "" := by
  intro e he
  unfold mappingStep at he
  rcases hfn : rowCell r fn_col with _ | fn <;> rcases hpw : rowCell r pw_col with _ | pw <;>
    rw [hfn, hpw] at he <;> dsimp only at he
  · exact hm e he
  · exact hm e he
  · exact hm e he
  · by_cases hskip : (strTrim fn == "" || strTrim pw == "")
    · rw [if_pos hskip] at he
      exact hm e he
    · rw [if_neg hskip] at he
      rcases dictInsert_mem m (strTrim fn) (strTrim pw) e he with h | h
      · exact hm e h
      · simp only [Bool.or_eq_true, beq_iff_eq] at hskip
        push_neg at hskip
        rw [h]
        exact hskip

theorem buildFold_good (fn_col pw_col : Nat) (rows : List Row) :
    ∀ m, (∀ e ∈ m, e.1 ≠ "" ∧ e.2 ≠ "") →
      ∀ e ∈ rows.foldl (mappingStep fn_col pw_col) m, e.1 ≠ "" ∧ e.2 ≠ "" := by
  induction rows with
  | nil => intro m hm; simpa using hm
  | cons r rest ih =>
    intro m hm
    rw [List.foldl_cons]
    exact ih _ (mappingStep_good fn_col pw_col m r hm)

theorem load_ok_buildMapping (wbr : Except PyError Workbook) (sheet : Option String)
    (m : List (String × String))
    (h : load_mapping_from_excel wbr sheet = .ok m) :
    ∃ rows fn_col pw_col, m = buildMapping rows fn_col pw_col := by
  unfold load_mapping_from_excel at h
  repeat'
    first
      | split at h
      | dsimp only at h
  all_goals
    first
      | exact Except.noConfusion h
      | exact ⟨_, _, _, (Except.ok.inj h).symm⟩

theorem lookup_cons_eq (a : String) (p : String × String) (l : List (String × String)) :
    List.lookup a (p :: l) = if a == p.1 then some p.2 else List.lookup a l := by
  rcases p with ⟨x, y⟩
  cases h : a == x
  · simp [List.lookup, h]
  · simp [List.lookup, h]

theorem string_ne_of_beq_false {a b : String} (h : (a == b) = false) : a ≠ b := by
  intro he
  subst he
  simp at h

theorem string_beq_false_of_ne {a b : String} (h : a ≠ b) : (a == b) = false := by
  cases hb : a == b
  · rfl
  · exact absurd (eq_of_beq hb) h

theorem lookup_map_overwrite (k v : String) : ∀ (m : List (String × String)),
    m.any (fun p => p.1 == k) = true →
    (m.map (fun p => if p.1 == k then (k, v) else p)).lookup k = some v := by
  intro m
  induction m with
  | nil => intro h; exact Bool.noConfusion h
  | cons p rest ih =>
    intro h
    by_cases hpk : p.1 == k
    · rw [List.map_cons, if_pos hpk, lookup_cons_eq]
      simp
    · have hres : rest.any (fun p => p.1 == k) = true := by
        simp only [List.any_cons, Bool.or_eq_true] at h
        rcases h with h | h
        · exact absurd h hpk
        · exact h
      have hpk2 : p.1 ≠ k := fun he => hpk (by rw [he]; simp)
      have hkp : (k == p.1) = false := string_beq_false_of_ne (Ne.symm hpk2)
      rw [List.map_cons, if_neg hpk, lookup_cons_eq]
      simp only [hkp, Bool.false_eq_true, if_false]
      exact ih hres

theorem lookup_append_new (k v : String) : ∀ (m : List (String × String)),
    m.any (fun p => p.1 == k) = false →
    (m ++ [(k, v)]).lookup k = some v := by
  intro m
  induction m with
  | nil => intro _; rw [List.nil_append, lookup_cons_eq]; simp
  | cons p rest ih =>
    intro h
    simp only [List.any_cons, Bool.or_eq_false_iff] at h
    have hkp : (k == p.1) = false :=
      string_beq_false_of_ne (Ne.symm (string_ne_of_beq_false h.1))
    rw [List.cons_append, lookup_cons_eq]
    simp only [hkp, Bool.false_eq_true, if_false]
    exact ih h.2

theorem lookup_map_ne (k v k2 : String) (h : k2 ≠ k) : ∀ (m : List (String × String)),
    (m.map (fun p => if p.1 == k then (k, v) else p)).lookup k2 = m.lookup k2 := by
  intro m
  induction m with
  | nil => rfl
  | cons p rest ih =>
    by_cases hpk : p.1 == k
    · have h1 : (k2 == k) = false := string_beq_false_of_ne h
      have h2 : (k2 == p.1) = false := by
        have hp1 : p.1 = k := eq_of_beq hpk
        rw [hp1]
        exact h1
      rw [List.map_cons, if_pos hpk, lookup_cons_eq, lookup_cons_eq]
      dsimp only
      simp only [h1, h2, Bool.false_eq_true, if_false]
      exact ih
    · rw [List.map_cons, if_neg hpk, lookup_cons_eq, lookup_cons_eq]
      cases hk2p : (k2 == p.1)
      · simp only [Bool.false_eq_true, if_false]
        exact ih
      · simp only [eq_self_iff_true, if_true]

theorem lookup_append_ne (k v k2 : String) (h : k2 ≠ k) : ∀ (m : List (String × String)),
    (m ++ [(k, v)]).lookup k2 = m.lookup k2 := by
  intro m
  induction m with
  | nil =>
    have hk2k : (k2 == k) = false := string_beq_false_of_ne h
    rw [List.nil_append, lookup_cons_eq]
    dsimp only
    simp only [hk2k, Bool.false_eq_true, if_false]
  | cons p rest ih =>
    rw [List.cons_append, lookup_cons_eq, lookup_cons_eq]
    cases hk2p : (k2 == p.1)
    · simp only [Bool.false_eq_true, if_false]
      exact ih
    · simp only [eq_self_iff_true, if_true]

theorem dictInsert_lookup_self (m : List (String × String)) (k v : String) :
    (dictInsert m k v).lookup k = some v := by
  unfold dictInsert
  by_cases hc : m.any (fun p => p.1 == k)
  · rw [if_pos hc]
    exact lookup_map_overwrite k v m hc
  · rw [if_neg hc]
    exact lookup_append_new k v m (bool_eq_false hc)

theorem dictInsert_lookup_ne (m : List (String × String)) (k v k2 : String) (h : k2 ≠ k) :
    (dictInsert m k v).lookup k2 = m.lookup k2 := by
  unfold dictInsert
  by_cases hc : m.any (fun p => p.1 == k)
  · rw [if_pos hc]
    exact lookup_map_ne k v k2 h m
  · rw [if_neg hc]
    exact lookup_append_ne k v k2 h m

theorem mappingStep_skip (fn_col pw_col : Nat) (m : List (String × String)) (r : Row)
    (hbad : rowCell r fn_col = none ∨ (∃ s, rowCell r fn_col = some s ∧ strTrim s = "") ∨
            rowCell r pw_col = none ∨ (∃ s, rowCell r pw_col = some s ∧ strTrim s = "")) :
    mappingStep fn_col pw_col m r = m := by
  unfold mappingStep
  rcases hfn : rowCell r fn_col with _ | fn <;> rcases hpw : rowCell r pw_col with _ | pw <;>
    dsimp only
  rcases hbad with h | ⟨s, hs, hst⟩ | h | ⟨s, hs, hst⟩
  · rw [hfn] at h
    exact Option.noConfusion h
  · rw [hfn] at hs
    have hfs : fn = s := Option.some_inj.mp hs
    subst hfs
    rw [if_pos]
    simp [hst]
  · rw [hpw] at h
    exact Option.noConfusion h
  · rw [hpw] at hs
    have hps : pw = s := Option.some_inj.mp hs
    subst hps
    rw [if_pos]
    simp [hst]

/-- C5: every loaded mapping entry has a non-empty (trimmed) filename
and password; a row whose target cell is missing, `None`, or blank
after trimming is dropped without affecting the result; and inserting
a later row with an already-present trimmed filename overwrites that
entry's password while leaving other keys untouched. -/
theorem mapping_nonempty_and_overwrite :
    (∀ (wbr : Except PyError Workbook) (sheet : Option String) m,
      load_mapping_from_excel wbr sheet = .ok m →
      ∀ e ∈ m, e.1 ≠ "" ∧ e.2 ≠ "") ∧
    (∀ (rows1 rows2 : List Row) (fn_col pw_col : Nat) (r : Row),
      (rowCell r fn_col = none ∨ (∃ s, rowCell r fn_col = some s ∧ strTrim s = "") ∨
       rowCell r pw_col = none ∨ (∃ s, rowCell r pw_col = some s ∧ strTrim s = "")) →
      buildMapping (rows1 ++ r :: rows2) fn_col pw_col
        = buildMapping (rows1 ++ rows2) fn_col pw_col) ∧
    (∀ (rows : List Row) (fn_col pw_col : Nat) (r : Row) (fn pw : String),
      rowCell r fn_col = some fn → rowCell r pw_col = some pw →
      strTrim fn ≠ "" → strTrim pw ≠ "" →
      (buildMapping (rows ++ [r]) fn_col pw_col).lookup (strTrim fn) = some (strTrim pw)) ∧
    (∀ (m : List (String × String)) (k v k2 : String), k2 ≠ k →
      (dictInsert m k v).lookup k = some v ∧
      (dictInsert m k v).lookup k2 = m.lookup k2) := by
  refine ⟨?_, ?_, ?_, ?_⟩
  · intro wbr sheet m hld e he
    obtain ⟨rows, fc, pc, hm⟩ := load_ok_buildMapping wbr sheet m hld
    subst hm
    exact buildFold_good fc pc rows [] (by intro e2 he2; exact absurd he2 (List.not_mem_nil e2)) e he
  · intro rows1 rows2 fn_col pw_col r hbad
    unfold buildMapping
    rw [List.foldl_append, List.foldl_cons, mappingStep_skip fn_col pw_col _ r hbad,
      List.foldl_append]
  · intro rows fn_col pw_col r fn pw hfn hpw hfn2 hpw2
    unfold buildMapping
    rw [List.foldl_append, List.foldl_cons, List.foldl_nil]
    unfold mappingStep
    rw [hfn, hpw]
    dsimp only
    rw [if_neg]
    · exact dictInsert_lookup_self _ (strTrim fn) (strTrim pw)
    · simp only [Bool.or_eq_true, beq_iff_eq]
      push_neg
      exact ⟨hfn2, hpw2⟩
  · intro m k v k2 hk
    exact ⟨dictInsert_lookup_self m k v, dictInsert_lookup_ne m k v k2 hk⟩

/-- C7 counterexample: a missing sheet and an empty sheet both fail
with `ValueError` — the same exception type, not two distinguishable
ones; they differ only in message. -/
theorem sheet_missing_and_empty_sheet_same_error_type :
    load_mapping_from_excel (.ok ⟨[("S", [[some "a", some "b"]])], 0⟩) (some "T")
      = .error (.valueError "找不到工作表：T") ∧
    load_mapping_from_excel (.ok ⟨[("S", [])], 0⟩) none
      = .error (.valueError "Excel 工作表为空") ∧
    PyError.kind (.valueError "找不到工作表：T")
      = PyError.kind (.valueError "Excel 工作表为空") :=
  ⟨rfl, rfl, rfl⟩

/-- C7 amended: the loader propagates the reader's
`FileNotFoundError` for a missing file — a type distinct from
`ValueError` — but raises `ValueError` both for a missing sheet and for
an empty sheet, so those two failure kinds share one exception type and
differ only in message. -/
theorem loader_error_types_amended :
    (∀ sheet, load_mapping_from_excel (.error .fileNotFoundError) sheet
        = .error .fileNotFoundError) ∧
    (∀ (wb : Workbook) (s : String), wb.sheetnames.contains s = false →
      load_mapping_from_excel (.ok wb) (some s)
        = .error (.valueError ("找不到工作表：" ++ s))) ∧
    (∀ wb : Workbook, wb.activeSheet = [] →
      load_mapping_from_excel (.ok wb) none
        = .error (.valueError "Excel 工作表为空")) ∧
    (∀ msg, PyError.kind .fileNotFoundError ≠ PyError.kind (.valueError msg)) := by
  refine ⟨fun sheet => rfl, ?_, ?_, ?_⟩
  · intro wb s hs
    unfold load_mapping_from_excel
    simp only [hs, Bool.false_eq_true, if_false]
  · intro wb h
    unfold load_mapping_from_excel
    dsimp only
    rw [h]
  · intro msg hk
    exact ErrKind.noConfusion hk

theorem isfile_mem {d : DirListing} {x : String} (h : isfile d x = true) :
    (x, true) ∈ d.entries := by
  unfold isfile at h
  obtain ⟨e, he, hcond⟩ := List.any_eq_true.mp h
  simp only [Bool.and_eq_true, beq_iff_eq] at hcond
  have hex : e = (x, true) := by
    cases e with
    | mk a b =>
      simp only at hcond
      rw [hcond.1, hcond.2]
  rw [← hex]
  exact he

theorem find_unique_name {d : DirListing} {x L : String}
    (hx : (x, true) ∈ d.entries) (hxl : strToLower x = L)
    (huniq : ∀ e ∈ d.entries, ∀ e2 ∈ d.entries, e.2 = true → e2.2 = true →
        strToLower e.1 = L → strToLower e2.1 = L → e.1 = e2.1) :
    ∃ e, d.entries.find? (fun e => strToLower e.1 == L && e.2) = some e ∧ e.1 = x := by
  have hsome : (d.entries.find? (fun e => strToLower e.1 == L && e.2)).isSome := by
    rw [List.find?_isSome]
    exact ⟨(x, true), hx, by simp [hxl]⟩
  obtain ⟨e, he⟩ := Option.isSome_iff_exists.mp hsome
  have hpe := List.find?_some he
  have hmem := List.mem_of_find?_eq_some he
  simp only [Bool.and_eq_true, beq_iff_eq] at hpe
  exact ⟨e, he, huniq e hmem (x, true) hx hpe.2 rfl hpe.1 hxl⟩

/-- C8: a declared filename without the extension and one carrying it
in any letter case, when the directory has a single regular file whose
lowercased name is the shared candidate, resolve to the same path, and
processing the two entries with the same password is indistinguishable
(identical encryption calls and outputs). -/
theorem resolve_extension_roundtrip (w : World) (args : Args) (n1 n2 : String)
    (h1 : strEndsWith (strToLower (strTrim n1)) ".pdf" = false)
    (h2 : strEndsWith (strToLower (strTrim n2)) ".pdf" = true)
    (h3 : strToLower (strTrim n1 ++ ".pdf") = strToLower (strTrim n2))
    (h4 : ∀ e ∈ w.dir.entries, ∀ e2 ∈ w.dir.entries, e.2 = true → e2.2 = true →
          strToLower e.1 = strToLower (strTrim n2) → strToLower e2.1 = strToLower (strTrim n2) →
          e.1 = e2.1) :
    resolve_pdf_path w.cwd w.dir n1 = resolve_pdf_path w.cwd w.dir n2 ∧
    (∀ (st : LoopState) (pw : String),
      processEntry w args st (n1, pw) = processEntry w args st (n2, pw)) := by
  have hres : resolve_pdf_path w.cwd w.dir n1 = resolve_pdf_path w.cwd w.dir n2 := by
    unfold resolve_pdf_path resolveBase
    dsimp only
    simp only [h1, h2, Bool.false_eq_true, if_false, eq_self_iff_true, if_true]
    by_cases ha : isfile w.dir (strTrim n2)
    · simp only [ha, if_true, eq_self_iff_true]
      have hmem2 : (strTrim n2, true) ∈ w.dir.entries := isfile_mem ha
      by_cases hb : isfile w.dir (strTrim n1 ++ ".pdf")
      · simp only [hb, if_true, eq_self_iff_true]
        have hmem1 : (strTrim n1 ++ ".pdf", true) ∈ w.dir.entries := isfile_mem hb
        have heq : strTrim n1 ++ ".pdf" = strTrim n2 :=
          h4 (strTrim n1 ++ ".pdf", true) hmem1 (strTrim n2, true) hmem2 rfl rfl h3 rfl
        rw [heq]
      · simp only [bool_eq_false hb, Bool.false_eq_true, if_false]
        rw [h3]
        obtain ⟨e, hfind, hename⟩ := find_unique_name hmem2 rfl h4
        rw [hfind]
        dsimp only
        rw [hename]
    · have ha2 : isfile w.dir (strTrim n2) = false := bool_eq_false ha
      simp only [ha2, Bool.false_eq_true, if_false]
      by_cases hb : isfile w.dir (strTrim n1 ++ ".pdf")
      · simp only [hb, if_true, eq_self_iff_true]
        obtain ⟨e, hfind, hename⟩ := find_unique_name (isfile_mem hb) h3 h4
        rw [hfind]
        dsimp only
        rw [hename]
      · simp only [bool_eq_false hb, Bool.false_eq_true, if_false]
        rw [h3]
  refine ⟨hres, ?_⟩
  intro st pw
  unfold processEntry
  dsimp only
  rw [hres]

/-- C1 witness: with an all-failing oracle the original is untouched
after a full in-place run; with a succeeding oracle the original holds
the renamed temporary content. -/
theorem inplace_preserves_original_witness :
    (main wFail argsIP).fs "/w/INVOICE.PDF" = wFail.fs0 "/w/INVOICE.PDF" ∧
    (processEntry wOk argsIP st0Test ("invoice", "abc123")).fs "/w/INVOICE.PDF"
      = some "ENC:/w/INVOICE.PDF" :=
  ⟨(inplace_preserves_original wFail argsIP "/w/INVOICE.PDF" rfl rfl).1,
   (inplace_preserves_original wOk argsIP "/w/notes.txt" rfl rfl).2
     st0Test ("invoice", "abc123") "/w/INVOICE.PDF" "ENC:/w/INVOICE.PDF" rfl rfl⟩

/-- C2 witness: an alias-free row yields columns (0, 1) and no header;
a row with alias cells points the detected column at an alias cell; and
the loader starts data rows after the header row. -/
theorem detect_columns_characterization_witness :
    detect_columns [some "a", some "b"] = (0, 1, false) ∧
    HEADER_ALIASES_filename.contains
      (([some " FileName ", some "密码"].map normCell).getD
        (detect_columns [some " FileName ", some "密码"]).1 "") = true ∧
    load_mapping_from_excel
        (.ok ⟨[("S", [some " FileName ", some "密码"] :: [[some "invoice", some "abc123"]])], 0⟩)
        none =
      .ok (buildMapping
        (([some " FileName ", some "密码"] :: [[some "invoice", some "abc123"]]).drop
          (if (detect_columns [some " FileName ", some "密码"]).2.2 then 1 else 0))
        (detect_columns [some " FileName ", some "密码"]).1
        (detect_columns [some " FileName ", some "密码"]).2.1) :=
  ⟨(detect_columns_characterization [some "a", some "b"]).1 (by decide),
   (detect_columns_characterization [some " FileName ", some "密码"]).2.2.1 (by decide),
   (detect_columns_characterization [some " FileName ", some "密码"]).2.2.2.2.2.2
     [[some "invoice", some "abc123"]] "S"⟩

/-- C5 witness: the loaded test mapping has non-blank entries, a
blank-celled row is dropped wherever it occurs, and a later duplicate
key overwrites the earlier password. -/
theorem mapping_nonempty_and_overwrite_witness :
    ("invoice" ≠ "" ∧ "abc123" ≠ "") ∧
    buildMapping ([[some "x", some "y"]] ++ [some " ", some "p"] :: [[some "a", some "b"]]) 0 1
      = buildMapping ([[some "x", some "y"]] ++ [[some "a", some "b"]]) 0 1 ∧
    (buildMapping ([[some "k", some "v1"]] ++ [[some " k ", some " v2 "]]) 0 1).lookup
        (strTrim " k ") = some (strTrim " v2 ") ∧
    (dictInsert [("a", "1")] "a" "2").lookup "a" = some "2" :=
  ⟨mapping_nonempty_and_overwrite.1 (.ok wbTest) none mappingTest rfl
     ("invoice", "abc123") (by decide),
   mapping_nonempty_and_overwrite.2.1 [[some "x", some "y"]] [[some "a", some "b"]] 0 1
     [some " ", some "p"] (Or.inr (Or.inl ⟨" ", rfl, rfl⟩)),
   mapping_nonempty_and_overwrite.2.2.1 [[some "k", some "v1"]] 0 1
     [some " k ", some " v2 "] " k " " v2 " rfl rfl (by decide) (by decide),
   (mapping_nonempty_and_overwrite.2.2.2 [("a", "1")] "a" "2" "zz" (by decide)).1⟩

/-- C6 witness: on the test world the recorded encryption calls equal
the per-entry prediction (entry password as user and owner). -/
theorem encryption_call_passwords_witness :
    (main wFail argsIP).calls = mappingTest.filterMap (entryCallSpec wFail argsIP) :=
  (encryption_call_passwords wFail argsIP mappingTest rfl rfl).1

/-- C7 witness for the amended statement, at concrete workbooks. -/
theorem loader_error_types_amended_witness :
    load_mapping_from_excel (.error .fileNotFoundError) none = .error .fileNotFoundError ∧
    load_mapping_from_excel (.ok ⟨[("S", [[some "a", some "b"]])], 0⟩) (some "T")
      = .error (.valueError ("找不到工作表：" ++ "T")) ∧
    load_mapping_from_excel (.ok ⟨[("S", [])], 0⟩) none
      = .error (.valueError "Excel 工作表为空") ∧
    PyError.kind .fileNotFoundError ≠ PyError.kind (.valueError "x") :=
  ⟨loader_error_types_amended.1 none,
   loader_error_types_amended.2.1 ⟨[("S", [[some "a", some "b"]])], 0⟩ "T" rfl,
   loader_error_types_amended.2.2.1 ⟨[("S", [])], 0⟩ rfl,
   loader_error_types_amended.2.2.2 "x"⟩

/-- C8 witness: `invoice` and ` Invoice.PDF ` resolve identically in a
directory containing `INVOICE.PDF`. -/
theorem resolve_extension_roundtrip_witness :
    resolve_pdf_path wFail.cwd wFail.dir "invoice"
      = resolve_pdf_path wFail.cwd wFail.dir " Invoice.PDF " :=
  (resolve_extension_roundtrip wFail argsIP "invoice" " Invoice.PDF "
    rfl rfl rfl (by decide)).1

/-- C9 witness: with every encryption call failing, the loop still
counts every entry and the summary is printed. -/
theorem per_entry_failure_never_aborts_witness :
    (main wFail argsIP).summaryPrinted = true ∧
    (main wFail argsIP).total = mappingTest.length :=
  ⟨(per_entry_failure_never_aborts wFail argsIP mappingTest rfl rfl (by decide)).1,
   (per_entry_failure_never_aborts wFail argsIP mappingTest rfl rfl (by decide)).2.1⟩

/-- C10 witness: counters add up on the test world. -/
theorem counter_invariant_witness :
    (main wFail argsIP).total
        = (main wFail argsIP).ok + (main wFail argsIP).skipped + (main wFail argsIP).failed ∧
    (main wFail argsIP).total = mappingTest.length :=
  ⟨(counter_invariant wFail argsIP mappingTest rfl rfl (by decide)).1,
   (counter_invariant wFail argsIP mappingTest rfl rfl (by decide)).2.1⟩

end Passkey
